import Mathlib

/-
Verification of the document/vector storage core (`languru/documents/document.py`
and its QuerySet layer) against its specification.

Modelling conventions, shared by all definitions below:
* Python strings are `List Char`; `str.strip()` is `pyStrip` (leading and
  trailing whitespace removed, with `Char.isWhitespace` standing for Python's
  whitespace class).
* KSUID primary keys (`doc_...`, `pt_...`) are lexicographically sortable unique
  strings; they are modelled as `Nat` with its order, which is what pagination
  and ordering claims depend on.
* Python floats (embedding coordinates, relevance scores) appear only as opaque
  payload — no claim performs float arithmetic — and are modelled as `Int`.
* `hashlib.md5(...).hexdigest()` is an external stdlib call; it is passed in as
  a function parameter `md5hex : List Char → List Char`.
* Fallible operations (pydantic validation, SQL errors) return `Option`/`Except`.
-/

/-- Whitespace test on a character, modelling Python's whitespace class used by
`str.strip()`. -/
def wsChar (c : Char) : Bool := c.isWhitespace

/-- Drop leading whitespace, the first half of Python's `str.strip()`. -/
def ldropWS (s : List Char) : List Char := s.dropWhile wsChar

/-- Drop trailing whitespace, the second half of Python's `str.strip()`. -/
def rdropWS (s : List Char) : List Char := ((s.reverse).dropWhile wsChar).reverse

/-- Python's `str.strip()`: remove leading and trailing whitespace. -/
def pyStrip (s : List Char) : List Char := rdropWS (ldropWS s)

theorem dropWhile_idem (p : Char → Bool) (l : List Char) :
    (l.dropWhile p).dropWhile p = l.dropWhile p := by
  induction l with
  | nil => rfl
  | cons a t ih =>
    by_cases h : p a = true
    · simp [List.dropWhile_cons, h, ih]
    · simp [List.dropWhile_cons, h]

theorem dropWhile_length_le (p : Char → Bool) (l : List Char) :
    (l.dropWhile p).length ≤ l.length := by
  induction l with
  | nil => simp
  | cons a t ih =>
    by_cases h : p a = true
    · simp only [List.dropWhile_cons, h, if_pos]
      exact Nat.le_trans ih (Nat.le_succ _)
    · simp [List.dropWhile_cons, h]

theorem dropWhile_fix_append (p : Char → Bool) (y z : List Char)
    (h : (y ++ z).dropWhile p = y ++ z) : y.dropWhile p = y := by
  cases y with
  | nil => rfl
  | cons a u =>
    have hpa : p a = false := by
      by_cases hp : p a = true
      · exfalso
        have h2 : (u ++ z).dropWhile p = a :: (u ++ z) := by
          simpa [List.dropWhile_cons, hp] using h
        have h3 := dropWhile_length_le p (u ++ z)
        rw [h2] at h3
        simp at h3
      · simpa using hp
    simp [List.dropWhile_cons, hpa]

theorem exists_dropWhile_drop (p : Char → Bool) (l : List Char) :
    ∃ n, l.dropWhile p = l.drop n := by
  induction l with
  | nil => exact ⟨0, rfl⟩
  | cons a t ih =>
    by_cases h : p a = true
    · obtain ⟨n, hn⟩ := ih
      exact ⟨n + 1, by simp [List.dropWhile_cons, h, hn]⟩
    · exact ⟨0, by simp [List.dropWhile_cons, h]⟩

theorem rdropWS_decomp (x : List Char) : ∃ z, x = rdropWS x ++ z := by
  obtain ⟨n, hn⟩ := exists_dropWhile_drop wsChar x.reverse
  refine ⟨(x.reverse.take n).reverse, ?_⟩
  unfold rdropWS
  rw [hn, ← List.reverse_append, List.take_append_drop, List.reverse_reverse]

theorem ldropWS_rdropWS (x : List Char) (hx : ldropWS x = x) :
    ldropWS (rdropWS x) = rdropWS x := by
  obtain ⟨z, hz⟩ := rdropWS_decomp x
  exact dropWhile_fix_append wsChar (rdropWS x) z (by rw [← hz]; exact hx)

theorem rdropWS_idem (x : List Char) : rdropWS (rdropWS x) = rdropWS x := by
  unfold rdropWS
  rw [List.reverse_reverse, dropWhile_idem]

theorem pyStrip_idem (s : List Char) : pyStrip (pyStrip s) = pyStrip s := by
  unfold pyStrip
  rw [ldropWS_rdropWS (ldropWS s) (dropWhile_idem wsChar s), rdropWS_idem]

/-- Error taxonomy of the store (spec section 7) together with the query
engine's invalid-input error class. -/
inductive DBErr where
  | NotFound
  | NotSupported
  | Conflict
  | InvalidInput
deriving DecidableEq

/-- The `Document` entity of `languru/documents/document.py`. `document_id` is
the KSUID primary key (modelled as `Nat`); the string fields are `List Char`;
`metadata` is an opaque association list. -/
structure Document where
  document_id : Nat
  name : List Char
  content : List Char
  content_md5 : List Char
  metadata : List (List Char × List Char)
  created_at : Nat
  updated_at : Nat
deriving DecidableEq

/-- Pydantic validation of `Document` (`model_config` has
`str_strip_whitespace=True`, `name` has `max_length=255`, `content` has
`max_length=5000`): every string field is stripped, then the length bounds are
checked; failure models a raised `ValidationError`. -/
def Document.model_validate (document_id : Nat) (name content content_md5 : List Char)
    (metadata : List (List Char × List Char)) (created_at updated_at : Nat) :
    Option Document :=
  let name := pyStrip name
  let content := pyStrip content
  let content_md5 := pyStrip content_md5
  if name.length ≤ 255 ∧ content.length ≤ 5000 then
    some ⟨document_id, name, content, content_md5, metadata, created_at, updated_at⟩
  else none

/-- `Document.hash_content`: MD5 hex digest of the stripped content, with the
digest function `md5hex` passed in (it models `hashlib.md5(...).hexdigest()`). -/
def Document.hash_content (md5hex : List Char → List Char) (content : List Char) :
    List Char :=
  md5hex (pyStrip content)

/-- `Document.from_content`: the canonical constructor. It validates the model
with `content_md5` set to the hash of the (stripped) content; `newId` models the
generated KSUID and `now` the `int(time.time())` default timestamps. -/
def Document.from_content (md5hex : List Char → List Char) (newId : Nat) (now : Nat)
    (name content : List Char) (metadata : List (List Char × List Char)) :
    Option Document :=
  Document.model_validate newId name content (Document.hash_content md5hex content)
    metadata now now

/-- `Document.strip`: re-normalizes content, recomputing the hash and bumping
`updated_at` only when the hash changed. With `copy=True` the source applies the
same assignments to a deep copy and returns it; in both cases the returned
document is the value computed here (field assignment in the source bypasses
re-validation, so `content_md5` is stored exactly as computed). -/
def Document.strip (md5hex : List Char → List Char) (now : Nat) (doc : Document) :
    Document :=
  let content := pyStrip doc.content
  let new_md5 := Document.hash_content md5hex content
  if doc.content_md5 ≠ new_md5 then
    { doc with content := content, content_md5 := new_md5, updated_at := now }
  else
    { doc with content := content }

/-- Modelled from the spec: the `content` branch of `DocumentQuerySet.update`
(in `languru/documents/_client.py`, which is absent from the sources) — updating
`content` replaces it (whitespace is always stripped before storage) and must
re-derive `content_md5` and `updated_at`. -/
def Document.update_content (md5hex : List Char → List Char) (now : Nat)
    (doc : Document) (content : List Char) : Document :=
  { doc with
      content := pyStrip content
      content_md5 := Document.hash_content md5hex content
      updated_at := now }

/-- Claim C2: after construction via `from_content`, after any `strip()` call
(with or without copy) and after a content update, `content_md5` equals the MD5
hex digest of the stripped content; and `strip()` sets `updated_at` to the
current time iff the recomputed hash differs from the stored one, leaving it
unchanged otherwise. The hypothesis `hclean` records that MD5 hex digests carry
no surrounding whitespace (they are lowercase hex), so pydantic's stripping of
the `content_md5` field is the identity on them. -/
theorem C2_content_hash_invariant (md5hex : List Char → List Char)
    (hclean : ∀ s, pyStrip (md5hex s) = md5hex s) :
    (∀ newId now name content metadata d,
        Document.from_content md5hex newId now name content metadata = some d →
        d.content_md5 = Document.hash_content md5hex d.content) ∧
    (∀ now doc,
        (Document.strip md5hex now doc).content_md5
            = Document.hash_content md5hex (Document.strip md5hex now doc).content ∧
        (Document.strip md5hex now doc).updated_at
            = (if Document.hash_content md5hex doc.content = doc.content_md5
               then doc.updated_at else now)) ∧
    (∀ now doc content,
        (Document.update_content md5hex now doc content).content_md5
            = Document.hash_content md5hex
                (Document.update_content md5hex now doc content).content) := by
  refine ⟨?_, ?_, ?_⟩
  · intro newId now name content metadata d hd
    unfold Document.from_content Document.model_validate at hd
    by_cases hb : (pyStrip name).length ≤ 255 ∧ (pyStrip content).length ≤ 5000
    · simp only [hb, if_pos] at hd
      cases hd
      simp [Document.hash_content, pyStrip_idem, hclean]
    · simp [hb] at hd
  · intro now doc
    refine ⟨?_, ?_⟩
    · simp only [Document.strip]
      split
      · next h => simp [Document.hash_content, pyStrip_idem]
      · next h =>
        push_neg at h
        simpa [Document.hash_content, pyStrip_idem] using h
    · simp only [Document.strip]
      split
      · next h =>
        have hne : ¬ (Document.hash_content md5hex doc.content = doc.content_md5) := by
          intro he
          refine h ?_
          simp only [Document.hash_content, pyStrip_idem]
          exact he.symm
        simp only [if_neg hne]
      · next h =>
        push_neg at h
        have hpos : Document.hash_content md5hex doc.content = doc.content_md5 := by
          simp only [Document.hash_content, pyStrip_idem] at h ⊢
          exact h.symm
        simp only [if_pos hpos]
  · intro now doc content
    simp [Document.update_content, Document.hash_content, pyStrip_idem]

/-- Witness for C2 at a concrete digest function and document: stripping a
document whose content carries trailing whitespace re-establishes the hash
invariant. -/
theorem C2_content_hash_invariant_witness :
    (Document.strip (fun _ => []) 7 ⟨1, [], [' '], ['x'], [], 0, 0⟩).content_md5
      = Document.hash_content (fun _ => [])
          ((Document.strip (fun _ => []) 7 ⟨1, [], [' '], ['x'], [], 0, 0⟩).content) :=
  ((C2_content_hash_invariant (fun _ => []) (fun _ => rfl)).2.1 7
    ⟨1, [], [' '], ['x'], [], 0, 0⟩).1

/-- The `Point` entity of `languru/documents/document.py`. `point_id` is the
KSUID primary key (modelled as `Nat`), `document_id` the foreign reference to
the owning document, `content_md5` the snapshot of the parent document's hash,
and `embedding` the vector payload (floats modelled as opaque `Int`s). -/
structure Point where
  point_id : Nat
  document_id : Nat
  content_md5 : List Char
  embedding : List Int
deriving DecidableEq

/-- Pydantic validation of `Point` (`model_config` has
`str_strip_whitespace=True`; the `embedding` field carries `max_length=512` and
`default_factory=list`): string fields are stripped and the embedding length
bound is checked; `none` models a raised `ValidationError`. -/
def Point.model_validate (point_id document_id : Nat) (content_md5 : List Char)
    (embedding : List Int) : Option Point :=
  if embedding.length ≤ 512 then
    some ⟨point_id, document_id, pyStrip content_md5, embedding⟩
  else none

/-- `Point.is_embedded` from the source: `False` when the embedding has length
zero, `True` otherwise. -/
def Point.is_embedded (p : Point) : Bool :=
  if p.embedding.length = 0 then false else true

/-- Counterexample to claim C8 as stated: a `Point` whose embedding has length 1
— neither 0 nor 512 — is constructible, because pydantic's `max_length=512` on
the `embedding` field only bounds the length from above. -/
theorem C8_counterexample :
    Point.model_validate 1 1 [] [5] = some ⟨1, 1, [], [5]⟩ ∧
    ¬ (([5] : List Int).length = 0 ∨ ([5] : List Int).length = 512) := by
  constructor
  · rfl
  · decide

/-- Claim C8 (amended): every constructible `Point` has an embedding of length
at most 512 — the configured dimensionality is an upper capacity bound, not an
exact-length constraint — and conversely any embedding within that bound is
accepted by validation unchanged. -/
theorem C8_embedding_capacity (point_id document_id : Nat) (content_md5 : List Char)
    (embedding : List Int) :
    (∀ p, Point.model_validate point_id document_id content_md5 embedding = some p →
        p.embedding.length ≤ 512) ∧
    (embedding.length ≤ 512 →
        ∃ p, Point.model_validate point_id document_id content_md5 embedding = some p ∧
          p.embedding = embedding) := by
  constructor
  · intro p hp
    unfold Point.model_validate at hp
    by_cases h : embedding.length ≤ 512
    · simp only [h, if_pos] at hp
      cases hp
      simpa using h
    · simp [h] at hp
  · intro h
    refine ⟨⟨point_id, document_id, pyStrip content_md5, embedding⟩, ?_, rfl⟩
    simp [Point.model_validate, h]

/-- Witness for the amended C8: an embedding of length 2 is accepted. -/
theorem C8_embedding_capacity_witness :
    ∃ p, Point.model_validate 2 3 [] [1, 2] = some p ∧ p.embedding = [1, 2] :=
  (C8_embedding_capacity 2 3 [] [1, 2]).2 (by decide)

/-- `Document.to_points`: strips the document in place, then builds exactly one
`Point` carrying the document's id and its (post-strip) `content_md5`. When an
explicit `embedding` is passed it goes into the validated params verbatim; with
neither an explicit embedding nor an OpenAI client the embedding key is omitted
and the pydantic default `[]` applies (the OpenAI-client path defers to the
external embedding provider and is not modelled here). The first component is
the stripped document — the in-place side effect on `self` — and the second the
produced point list, with `none` modelling a raised `ValidationError`. -/
def Document.to_points (md5hex : List Char → List Char) (now : Nat) (newPid : Nat)
    (doc : Document) (embedding : Option (List Int)) :
    Document × Option (List Point) :=
  let d := Document.strip md5hex now doc
  let pt :=
    match embedding with
    | some e => Point.model_validate newPid d.document_id d.content_md5 e
    | none => Point.model_validate newPid d.document_id d.content_md5 []
  (d, pt.map (fun p => [p]))

set_option maxRecDepth 8000 in
/-- Counterexample to claim C10 as stated: passing an explicit embedding of
length 513 makes `Point` validation fail (`max_length=512`), so `to_points`
raises instead of returning a one-point list — the explicit embedding does not
unconditionally become the Point's embedding. -/
theorem C10_counterexample :
    (Document.to_points (fun _ => []) 0 9 ⟨1, [], ['a'], ['b'], [], 0, 0⟩
        (some (List.replicate 513 0))).2 = none := by
  have h : ¬ ((List.replicate 513 (0 : Int)).length ≤ 512) := by
    simp [List.length_replicate]
  simp [Document.to_points, Point.model_validate, h]

/-- Claim C10 (amended): `to_points` strips the document in place and returns
exactly one `Point` whose `document_id` is the document's and whose
`content_md5` is the post-strip hash snapshot; an explicit embedding becomes the
Point's embedding unchanged provided it is within payload capacity
(length at most 512) — longer vectors fail validation. The hypotheses record
that hex digests and the stored `content_md5` carry no surrounding whitespace. -/
theorem C10_to_points (md5hex : List Char → List Char) (now newPid : Nat)
    (doc : Document) (e : List Int)
    (hclean : ∀ s, pyStrip (md5hex s) = md5hex s)
    (hmd5 : pyStrip doc.content_md5 = doc.content_md5)
    (hlen : e.length ≤ 512) :
    (Document.to_points md5hex now newPid doc (some e)).1
        = Document.strip md5hex now doc ∧
    (Document.to_points md5hex now newPid doc (some e)).2
        = some [⟨newPid, doc.document_id,
                 (Document.strip md5hex now doc).content_md5, e⟩] := by
  have hid : (Document.strip md5hex now doc).document_id = doc.document_id := by
    simp only [Document.strip]
    split <;> rfl
  have hmd : pyStrip (Document.strip md5hex now doc).content_md5
      = (Document.strip md5hex now doc).content_md5 := by
    simp only [Document.strip]
    split
    · exact hclean _
    · exact hmd5
  have hv : Point.model_validate newPid (Document.strip md5hex now doc).document_id
      (Document.strip md5hex now doc).content_md5 e
      = some ⟨newPid, doc.document_id, (Document.strip md5hex now doc).content_md5, e⟩ := by
    simp [Point.model_validate, hlen, hid, hmd]
  constructor
  · rfl
  · simp only [Document.to_points, hv]
    rfl

/-- Witness for the amended C10 at a concrete document and embedding. -/
theorem C10_to_points_witness :
    (Document.to_points (fun _ => []) 3 9 ⟨1, [], [' '], ['x'], [], 0, 0⟩
        (some [7])).2
      = some [⟨9, 1,
          (Document.strip (fun _ => []) 3 ⟨1, [], [' '], ['x'], [], 0, 0⟩).content_md5,
          [7]⟩] :=
  (C10_to_points (fun _ => []) 3 9 ⟨1, [], [' '], ['x'], [], 0, 0⟩ [7]
    (fun _ => rfl) (by decide) (by decide)).2

/-- `PointWithScore`: a `Point` together with the `relevance_score` column
produced by the similarity query (cosine similarity, an opaque float payload
modelled as `Int`). -/
structure PointWithScore where
  point_id : Nat
  document_id : Nat
  content_md5 : List Char
  embedding : List Int
  relevance_score : Int
deriving DecidableEq

/-- The `SearchResult` aggregate of the source, with float payload modelled as
`Int` and the pass-through presentation fields kept as opaque options. -/
structure SearchResult where
  query : Option (List Char)
  «matches» : List PointWithScore
  documents : List Document
  total_results : Nat
  execution_time : Int
  relevance_score : Option Int
  highlight : Option (List (List Char × List (List Char)))
  facets : Option (List (List Char × List (List Char × Nat)))
  suggestions : Option (List (List Char))

/-- `Document.to_query_cards`: the stripped query text as a one-element batch. -/
def Document.to_query_cards (query : List Char) : List (List Char) :=
  [pyStrip query]

/-- `Document.search`, translated from the source: it computes the query
embedding through `embeddings_create_with_cache` (the external embedding
provider plus cache, passed in as `embed`) and then reaches the end of the
function body without any `return` statement, so Python returns the implicit
`None` — modelled as `none` — despite the declared `-> SearchResult` return
annotation. -/
def Document.search (embed : List (List Char) → List (List Int))
    (query : List Char) : Option SearchResult :=
  let _vectors := embed (Document.to_query_cards query)
  none

/-- Claim C3 (refuted by the code): for every query string and embedding
provider, `Document.search` returns `None`. The source vectorizes the query and
then falls off the end of the function body: it never invokes the single-vector
search and never constructs a `SearchResult`, contradicting both its own return
annotation and the claim. -/
theorem C3_search_returns_no_result (embed : List (List Char) → List (List Int))
    (query : List Char) : Document.search embed query = none := rfl

/-- One page returned by `QuerySet.list`: the page rows, the cursor for the next
call, and the one-extra-row lookahead flag. -/
structure Page (α : Type) where
  data : List α
  last_id : Option Nat
  has_more : Bool

/-- The exclusive `after` cursor condition of `QuerySet.list`: keep rows whose
primary key is strictly greater than the cursor; all rows when no cursor. -/
def afterCond {α : Type} (key : α → Nat) (after : Option Nat) (e : α) : Bool :=
  match after with
  | none => true
  | some a => decide (a < key e)

/-- The rows of the store matching the filter and lying strictly past the
cursor, in store (ascending primary key) order. -/
def qrows {α : Type} (key : α → Nat) (flt : α → Bool) (store : List α)
    (after : Option Nat) : List α :=
  store.filter (fun e => flt e && afterCond key after e)

/-- Modelled from the spec: `QuerySet.list` (in `languru/documents/_client.py`,
absent from the sources) — returns a page in ascending primary-key order with
the exclusive `after` cursor applied, at most `limit` rows, `has_more`
determined by fetching one extra row beyond `limit` and checking its presence,
and `last_id` the id of the last returned row (or none on an empty page). The
store is kept abstract over the entity type, covering both Documents and
Points. -/
def qlist {α : Type} (key : α → Nat) (flt : α → Bool) (store : List α)
    (after : Option Nat) (limit : Nat) : Page α :=
  let fetched := (qrows key flt store after).take (limit + 1)
  let data := fetched.take limit
  { data := data
    last_id := data.getLast?.map key
    has_more := decide (limit < fetched.length) }

/-- The pagination drain loop of the spec and the tests: repeatedly call `list`
with `after` set to the previous page's `last_id` until `has_more` is false,
concatenating the pages. `fuel` bounds the iteration to keep the function
total; the theorems supply enough fuel for the loop to terminate on its own. -/
def drainList {α : Type} (key : α → Nat) (flt : α → Bool) (store : List α)
    (limit : Nat) : Nat → Option Nat → List α
  | 0, _ => []
  | fuel + 1, after =>
    let page := qlist key flt store after limit
    page.data ++
      (if page.has_more then drainList key flt store limit fuel page.last_id else [])

theorem qlist_data {α : Type} (key : α → Nat) (flt : α → Bool) (store : List α)
    (after : Option Nat) (limit : Nat) :
    (qlist key flt store after limit).data = (qrows key flt store after).take limit := by
  simp [qlist, List.take_take]

theorem qlist_last_id {α : Type} (key : α → Nat) (flt : α → Bool) (store : List α)
    (after : Option Nat) (limit : Nat) :
    (qlist key flt store after limit).last_id
      = ((qrows key flt store after).take limit).getLast?.map key := by
  simp [qlist, List.take_take]

theorem qlist_has_more {α : Type} (key : α → Nat) (flt : α → Bool) (store : List α)
    (after : Option Nat) (limit : Nat) :
    (qlist key flt store after limit).has_more
      = decide (limit < (qrows key flt store after).length) := by
  simp only [qlist, List.length_take]
  apply decide_eq_decide.mpr
  omega

theorem getLast?_decomp {α : Type} (l : List α) (h : l ≠ []) :
    ∃ y e, l = y ++ [e] ∧ l.getLast? = some e := by
  induction l with
  | nil => exact absurd rfl h
  | cons a t ih =>
    cases t with
    | nil => exact ⟨[], a, rfl, rfl⟩
    | cons b u =>
      obtain ⟨y, e, hy, he⟩ := ih (by simp)
      exact ⟨a :: y, e, by rw [List.cons_append, ← hy], by
        rw [List.getLast?_cons_cons, he]⟩

theorem filter_gt_of_sorted {α : Type} (key : α → Nat) (y1 y2 : List α) (e : α)
    (hs : (y1 ++ e :: y2).Pairwise (fun a b => key a < key b)) :
    (y1 ++ e :: y2).filter (fun x => decide (key e < key x)) = y2 := by
  rw [List.filter_append]
  rw [List.pairwise_append] at hs
  obtain ⟨hs1, hs2, hcross⟩ := hs
  have h1 : y1.filter (fun x => decide (key e < key x)) = [] := by
    apply List.filter_eq_nil_iff.mpr
    intro a ha
    have := hcross a ha e (by simp)
    simp only [decide_eq_true_eq]
    omega
  have h2 : (e :: y2).filter (fun x => decide (key e < key x)) = y2 := by
    rw [List.pairwise_cons] at hs2
    have hy2 : y2.filter (fun x => decide (key e < key x)) = y2 :=
      List.filter_eq_self.mpr (fun b hb => by simpa using hs2.1 b hb)
    simp [List.filter_cons, hy2]
  rw [h1, h2, List.nil_append]

theorem qrows_sorted {α : Type} (key : α → Nat) (flt : α → Bool) (store : List α)
    (after : Option Nat) (hsorted : store.Pairwise (fun a b => key a < key b)) :
    (qrows key flt store after).Pairwise (fun a b => key a < key b) :=
  hsorted.filter _

theorem qrows_after_last {α : Type} (key : α → Nat) (flt : α → Bool)
    (store : List α) (after : Option Nat) (e : α) (y1 y2 : List α)
    (hsorted : store.Pairwise (fun a b => key a < key b))
    (hsplit : qrows key flt store after = y1 ++ e :: y2)
    (hafter : ∀ a, after = some a → a < key e) :
    qrows key flt store (some (key e)) = y2 := by
  have hpt : ∀ x, (flt x && afterCond key (some (key e)) x)
      = (decide (key e < key x) && (flt x && afterCond key after x)) := by
    intro x
    cases after with
    | none => simp [afterCond, Bool.and_comm]
    | some a =>
      have ha := hafter a rfl
      by_cases h1 : key e < key x
      · have h2 : a < key x := lt_trans ha h1
        simp [afterCond, h1, h2]
      · simp [afterCond, h1]
  have hstep : qrows key flt store (some (key e))
      = (qrows key flt store after).filter (fun x => decide (key e < key x)) := by
    unfold qrows
    rw [List.filter_filter]
    exact List.filter_congr (fun x _ => hpt x)
  rw [hstep, hsplit]
  exact filter_gt_of_sorted key y1 y2 e
    (by rw [← hsplit]; exact qrows_sorted key flt store after hsorted)

theorem drainList_eq {α : Type} (key : α → Nat) (flt : α → Bool) (store : List α)
    (limit : Nat) (hsorted : store.Pairwise (fun a b => key a < key b))
    (hlim : 0 < limit) :
    ∀ fuel after, (qrows key flt store after).length < fuel →
      drainList key flt store limit fuel after = qrows key flt store after := by
  intro fuel
  induction fuel with
  | zero => intro after h; omega
  | succ fuel ih =>
    intro after h
    rw [drainList]
    rw [qlist_data, qlist_has_more, qlist_last_id]
    by_cases hm : limit < (qrows key flt store after).length
    · have hne : (qrows key flt store after).take limit ≠ [] := by
        have hpos : 0 < ((qrows key flt store after).take limit).length := by
          rw [List.length_take]
          omega
        exact List.length_pos.mp hpos
      obtain ⟨y, e, hy, he⟩ := getLast?_decomp _ hne
      have hrows : qrows key flt store after
          = y ++ e :: (qrows key flt store after).drop limit := by
        conv_lhs => rw [← List.take_append_drop limit (qrows key flt store after)]
        rw [hy, List.append_assoc, List.singleton_append]
      have hmem : e ∈ qrows key flt store after := by
        have he2 : e ∈ (qrows key flt store after).take limit := by
          rw [hy]; simp
        exact List.take_subset _ _ he2
      have hafter : ∀ a, after = some a → a < key e := by
        intro a haft
        subst haft
        unfold qrows at hmem
        have h2 := List.of_mem_filter hmem
        simp only [Bool.and_eq_true, afterCond, decide_eq_true_eq] at h2
        exact h2.2
      have hnext : qrows key flt store (some (key e))
          = (qrows key flt store after).drop limit :=
        qrows_after_last key flt store after e y _ hsorted hrows hafter
      have hlen2 : (qrows key flt store (some (key e))).length < fuel := by
        rw [hnext, List.length_drop]
        omega
      have hif : decide (limit < (qrows key flt store after).length) = true := by
        simpa using hm
      rw [he, if_pos hif]
      have hmap : Option.map key (some e) = some (key e) := rfl
      rw [hmap, ih _ hlen2, hnext]
      conv_rhs => rw [hrows]
      rw [hy, List.append_assoc, List.singleton_append]
    · have htake : (qrows key flt store after).take limit = qrows key flt store after :=
        List.take_of_length_le (by omega)
      have hif : ¬ (decide (limit < (qrows key flt store after).length) = true) := by
        simpa using hm
      rw [if_neg hif, htake, List.append_nil]

/-- Claim C7: iterating `list` with `after` set to the previous page's
`last_id` until `has_more` is false yields exactly the matching rows, each
exactly once, in ascending primary-key order (the drained output literally
equals the filtered, key-sorted store, whose key list is strictly increasing);
and `has_more` is true iff at least one matching row exists past the returned
page. The QuerySet is spec-modelled (its module is absent from the sources);
the store is sorted by its primary key — KSUID keys are generated in sortable
order — and the page limit is positive. -/
theorem C7_pagination_complete {α : Type} (key : α → Nat) (flt : α → Bool)
    (store : List α) (limit : Nat)
    (hsorted : store.Pairwise (fun a b => key a < key b)) (hlim : 0 < limit) :
    drainList key flt store limit (store.length + 1) none = store.filter flt ∧
    ((store.filter flt).map key).Pairwise (· < ·) ∧
    ∀ after, (qlist key flt store after limit).has_more = true ↔
      (qrows key flt store after).drop limit ≠ [] := by
  have hnone : qrows key flt store none = store.filter flt := by
    unfold qrows
    apply List.filter_congr
    intro x _
    simp [afterCond]
  refine ⟨?_, ?_, ?_⟩
  · rw [drainList_eq key flt store limit hsorted hlim _ none ?_, hnone]
    calc (qrows key flt store none).length = (store.filter flt).length := by rw [hnone]
    _ ≤ store.length := List.length_filter_le _ _
    _ < store.length + 1 := Nat.lt_succ_self _
  · rw [List.pairwise_map]
    exact hsorted.filter _
  · intro after
    rw [qlist_has_more]
    simp only [decide_eq_true_eq]
    constructor
    · intro hlt hnil
      have := congrArg List.length hnil
      simp [List.length_drop] at this
      omega
    · intro hne
      by_contra hle
      exact hne (List.drop_eq_nil_of_le (by omega))

/-- Witness for C7: six stored entities, the even-key filter, page limit 2 —
the drain yields exactly the three matching keys in ascending order. -/
theorem C7_pagination_complete_witness :
    drainList (fun x => x) (fun x => x % 2 == 0) [1, 2, 3, 4, 5, 6] 2 7 none
      = [2, 4, 6] :=
  ((C7_pagination_complete (fun x => x) (fun x => x % 2 == 0) [1, 2, 3, 4, 5, 6] 2
    (by decide) (by decide)).1).trans (by decide)

/-- The `document_id` filter that `are_points_current` passes to `Point.objects.list`. -/
def byDocId (docId : Nat) : Point → Bool := fun p => p.document_id == docId

/-- The paging loop of `Document.are_points_current`, translated from the
source: fetch a page of the document's points (`list` is called with its
default page limit, 20), return `False` when the very first page is empty,
return `False` on any point whose `content_md5` differs from the document's,
then continue from `last_id` while `has_more`; otherwise `True`. `fuel` bounds
the loop to keep the function total — the loop strictly advances the cursor,
and the theorems supply enough fuel for it to terminate on its own. -/
def apcGo (store : List Point) (docId : Nat) (md5 : List Char) :
    Nat → Option Nat → Bool
  | 0, _ => true
  | fuel + 1, after =>
    let page := qlist Point.point_id (byDocId docId) store after 20
    if page.data = [] ∧ after = none then false
    else if page.data.any (fun p => decide (p.content_md5 ≠ md5)) then false
    else if page.has_more then apcGo store docId md5 fuel page.last_id
    else true

/-- `Document.are_points_current`: pages through all points of the document,
comparing each point's snapshot hash with the document's current hash. -/
def Document.are_points_current (store : List Point) (doc : Document) : Bool :=
  apcGo store doc.document_id doc.content_md5 (store.length + 1) none

theorem apcGo_spec (store : List Point) (docId : Nat) (md5 : List Char)
    (hsorted : store.Pairwise (fun a b => a.point_id < b.point_id)) :
    ∀ fuel after,
      (qrows Point.point_id (byDocId docId) store after).length < fuel →
      (apcGo store docId md5 fuel after = true ↔
        ((after = none → qrows Point.point_id (byDocId docId) store none ≠ []) ∧
         ∀ p ∈ qrows Point.point_id (byDocId docId) store after,
           p.content_md5 = md5)) := by
  intro fuel
  induction fuel with
  | zero => intro after h; omega
  | succ fuel ih =>
    intro after h
    rw [apcGo]
    rw [qlist_data, qlist_has_more, qlist_last_id]
    by_cases hrows : qrows Point.point_id (byDocId docId) store after = []
    · cases after with
      | none => simp [hrows]
      | some a => simp [hrows]
    · have hne : (qrows Point.point_id (byDocId docId) store after).take 20 ≠ [] := by
        have hpos : 0 < ((qrows Point.point_id (byDocId docId) store after).take 20).length := by
          rw [List.length_take]
          have := List.length_pos.mpr hrows
          omega
        exact List.length_pos.mp hpos
      have hc1 : ¬ ((qrows Point.point_id (byDocId docId) store after).take 20 = []
          ∧ after = none) := fun hc => hne hc.1
      rw [if_neg hc1]
      by_cases hmis : ((qrows Point.point_id (byDocId docId) store after).take 20).any
          (fun p => decide (p.content_md5 ≠ md5)) = true
      · rw [if_pos hmis]
        obtain ⟨p, hpmem, hpne⟩ := List.any_eq_true.mp hmis
        simp only [Bool.false_eq_true, false_iff]
        intro hc
        have hp5 : p.content_md5 = md5 :=
          hc.2 p (List.take_subset _ _ hpmem)
        have hp6 : p.content_md5 ≠ md5 := by simpa using hpne
        exact hp6 hp5
      · rw [if_neg hmis]
        have hall : ∀ p ∈ (qrows Point.point_id (byDocId docId) store after).take 20,
            p.content_md5 = md5 := by
          intro p hp
          by_contra hcon
          exact hmis (List.any_eq_true.mpr ⟨p, hp, by simpa using hcon⟩)
        by_cases hm : 20 < (qrows Point.point_id (byDocId docId) store after).length
        · obtain ⟨y, e, hy, he⟩ := getLast?_decomp _ hne
          have hrows2 : qrows Point.point_id (byDocId docId) store after
              = y ++ e :: (qrows Point.point_id (byDocId docId) store after).drop 20 := by
            conv_lhs => rw [← List.take_append_drop 20
              (qrows Point.point_id (byDocId docId) store after)]
            rw [hy, List.append_assoc, List.singleton_append]
          have hmem : e ∈ qrows Point.point_id (byDocId docId) store after := by
            have he2 : e ∈ (qrows Point.point_id (byDocId docId) store after).take 20 := by
              rw [hy]; simp
            exact List.take_subset _ _ he2
          have hafter : ∀ a, after = some a → a < Point.point_id e := by
            intro a haft
            subst haft
            unfold qrows at hmem
            have h2 := List.of_mem_filter hmem
            simp only [Bool.and_eq_true, afterCond, decide_eq_true_eq] at h2
            exact h2.2
          have hnext : qrows Point.point_id (byDocId docId) store (some (Point.point_id e))
              = (qrows Point.point_id (byDocId docId) store after).drop 20 :=
            qrows_after_last Point.point_id (byDocId docId) store after e y _
              hsorted hrows2 hafter
          have hlen2 : (qrows Point.point_id (byDocId docId) store
              (some (Point.point_id e))).length < fuel := by
            rw [hnext, List.length_drop]
            omega
          have hif : decide (20 < (qrows Point.point_id (byDocId docId) store after).length)
              = true := by simpa using hm
          rw [he, if_pos hif]
          have hmap : Option.map Point.point_id (some e) = some (Point.point_id e) := rfl
          rw [hmap, ih _ hlen2, hnext]
          constructor
          · rintro ⟨-, hdrop⟩
            refine ⟨?_, ?_⟩
            · intro haft
              subst haft
              exact hrows
            · intro p hp
              have hp2 : p ∈ (qrows Point.point_id (byDocId docId) store after).take 20
                  ++ (qrows Point.point_id (byDocId docId) store after).drop 20 := by
                rw [List.take_append_drop]
                exact hp
              rcases List.mem_append.mp hp2 with h1 | h2
              · exact hall p h1
              · exact hdrop p h2
          · rintro ⟨-, hallrows⟩
            refine ⟨fun hcon => Option.noConfusion hcon, ?_⟩
            intro p hp
            refine hallrows p ?_
            rw [← List.take_append_drop 20 (qrows Point.point_id (byDocId docId) store after)]
            exact List.mem_append.mpr (Or.inr hp)
        · have hif : ¬ (decide (20 < (qrows Point.point_id (byDocId docId) store after).length)
              = true) := by simpa using hm
          rw [if_neg hif]
          have htake : (qrows Point.point_id (byDocId docId) store after).take 20
              = qrows Point.point_id (byDocId docId) store after :=
            List.take_of_length_le (by omega)
          simp only [true_iff]
          refine ⟨?_, ?_⟩
          · intro haft
            subst haft
            exact hrows
          · intro p hp
            exact hall p (by rw [htake]; exact hp)

/-- Claim C1: `are_points_current` returns false when zero points exist for the
document, returns false when any retrieved point's `content_md5` differs from
the document's current hash, and returns true exactly when the set of the
document's points is non-empty and every point — across all pages, pagination
fully drained — carries the document's current hash. The page source
(`Point.objects.list`) is spec-modelled since its module is absent from the
sources; the store is sorted by point id (KSUIDs are generated in sortable
order). -/
theorem C1_are_points_current (store : List Point) (doc : Document)
    (hsorted : store.Pairwise (fun a b => a.point_id < b.point_id)) :
    Document.are_points_current store doc = true ↔
      (store.filter (byDocId doc.document_id) ≠ [] ∧
       ∀ p ∈ store.filter (byDocId doc.document_id),
         p.content_md5 = doc.content_md5) := by
  have hnone : qrows Point.point_id (byDocId doc.document_id) store none
      = store.filter (byDocId doc.document_id) := by
    unfold qrows
    exact List.filter_congr (fun x _ => by simp [afterCond])
  have hlen : (qrows Point.point_id (byDocId doc.document_id) store none).length
      < store.length + 1 := by
    have h1 : (qrows Point.point_id (byDocId doc.document_id) store none).length
        ≤ store.length := List.length_filter_le _ _
    omega
  have h := apcGo_spec store doc.document_id doc.content_md5 hsorted
    (store.length + 1) none hlen
  unfold Document.are_points_current
  rw [h, hnone]
  simp

/-- Witness for C1: two matching points with the document's hash and one point
of another document — `are_points_current` reports true. -/
theorem C1_are_points_current_witness :
    Document.are_points_current
      [⟨1, 5, ['m'], []⟩, ⟨2, 5, ['m'], []⟩, ⟨3, 6, ['q'], []⟩]
      ⟨5, [], ['c'], ['m'], [], 0, 0⟩ = true := by
  have h := C1_are_points_current
    [⟨1, 5, ['m'], []⟩, ⟨2, 5, ['m'], []⟩, ⟨3, 6, ['q'], []⟩]
    ⟨5, [], ['c'], ['m'], [], 0, 0⟩ (by decide)
  exact h.mpr (by decide)

/-- A row of the with-documents similarity query result: the point columns,
already packaged as a `PointWithScore`, and — from the join — the parent
document's columns. The source guards on the presence of the `d` column, hence
the `Option`. -/
structure SearchRow where
  p : PointWithScore
  d : Option Document
deriving DecidableEq

/-- The result-parsing loop of `search_single_vector` for the
`with_documents=True` branch, translated from the source: every row's point is
appended to the matches; a row's document is appended to the documents only
when its `document_id` is not in the walked set yet, which is then extended. -/
def parseGo : List SearchRow → List Nat → List PointWithScore × List Document
  | [], _ => ([], [])
  | r :: rest, walked =>
    match r.d with
    | none =>
      let out := parseGo rest walked
      (r.p :: out.1, out.2)
    | some d =>
      if d.document_id ∈ walked then
        let out := parseGo rest walked
        (r.p :: out.1, out.2)
      else
        let out := parseGo rest (d.document_id :: walked)
        (r.p :: out.1, d :: out.2)

/-- The full parse of the with-documents result set, starting from an empty
walked set. -/
def parseSearchRows (rows : List SearchRow) : List PointWithScore × List Document :=
  parseGo rows []

/-- First-occurrence deduplication with an already-seen set — the ordering the
spec prescribes for the `documents` output: keep each id's first appearance and
drop later repeats. -/
def dedupFirstGo : List Nat → List Nat → List Nat
  | [], _ => []
  | x :: xs, seen =>
    if x ∈ seen then dedupFirstGo xs seen
    else x :: dedupFirstGo xs (x :: seen)

/-- First-occurrence deduplication of a list of ids. -/
def dedupFirst (xs : List Nat) : List Nat := dedupFirstGo xs []

/-- The configured embedding dimensionality, `Point.EMBEDDING_DIMENSIONS`. -/
def EMBEDDING_DIMENSIONS : Nat := 512

/-- The query engine's `?::FLOAT[n]` parameter cast used by the similarity
query: binding succeeds exactly when the bound vector has length `n` and fails
with the engine's invalid-input error — the `InvalidArgument` class of the
spec's taxonomy — otherwise. -/
def castFloatArray (n : Nat) (v : List Int) : Except DBErr (List Int) :=
  if v.length = n then Except.ok v else Except.error DBErr.InvalidInput

/-- `Document.search_single_vector`: binds the query vector under the
`FLOAT[EMBEDDING_DIMENSIONS]` cast, lets the engine rank the stored points by
cosine similarity descending (ties arbitrary) truncated to `top_k` — that
engine-side float ordering is external and enters as `rankedRows`, the rows
the engine hands back — and parses the rows exactly as the source does: the
with-documents branch walks rows deduplicating documents by id; the plain
branch converts each row to a `PointWithScore` and returns no documents. -/
def searchSingleVector (vector : List Int) (rankedRows : List SearchRow)
    (with_documents : Bool) :
    Except DBErr (List PointWithScore × List Document) :=
  match castFloatArray EMBEDDING_DIMENSIONS vector with
  | Except.error e => Except.error e
  | Except.ok _ =>
    if with_documents then Except.ok (parseSearchRows rankedRows)
    else Except.ok (rankedRows.map (fun r => r.p), [])

theorem parseGo_fst (rows : List SearchRow) : ∀ walked,
    (parseGo rows walked).1 = rows.map (fun r => r.p) := by
  induction rows with
  | nil => intro walked; rfl
  | cons r rest ih =>
    intro walked
    cases hd : r.d with
    | none => simp [parseGo, hd, ih]
    | some d =>
      by_cases hw : d.document_id ∈ walked
      · simp [parseGo, hd, hw, ih]
      · simp [parseGo, hd, hw, ih]

theorem parseGo_snd (rows : List SearchRow) : ∀ walked,
    (parseGo rows walked).2.map (fun d => d.document_id)
      = dedupFirstGo
          (rows.filterMap (fun r => Option.map (fun d => d.document_id) r.d))
          walked := by
  induction rows with
  | nil => intro walked; rfl
  | cons r rest ih =>
    intro walked
    cases hd : r.d with
    | none => simp [parseGo, hd, List.filterMap_cons, ih]
    | some d =>
      by_cases hw : d.document_id ∈ walked
      · simp [parseGo, hd, hw, List.filterMap_cons, dedupFirstGo, ih]
      · simp [parseGo, hd, hw, List.filterMap_cons, dedupFirstGo, ih]

theorem dedupFirstGo_nodup (xs : List Nat) : ∀ seen,
    (dedupFirstGo xs seen).Nodup ∧ ∀ y ∈ dedupFirstGo xs seen, y ∉ seen := by
  induction xs with
  | nil => intro seen; exact ⟨List.nodup_nil, by simp [dedupFirstGo]⟩
  | cons x t ih =>
    intro seen
    by_cases hx : x ∈ seen
    · rw [dedupFirstGo, if_pos hx]
      exact ih seen
    · rw [dedupFirstGo, if_neg hx]
      obtain ⟨h1, h2⟩ := ih (x :: seen)
      refine ⟨List.nodup_cons.mpr ⟨?_, h1⟩, ?_⟩
      · intro hxin
        exact (h2 x hxin) (by simp)
      · intro y hy
        rcases List.mem_cons.mp hy with h | h
        · subst h
          exact hx
        · intro hysn
          exact h2 y h (by simp [hysn])

theorem dedupFirstGo_subset (xs : List Nat) : ∀ seen y,
    y ∈ dedupFirstGo xs seen → y ∈ xs := by
  induction xs with
  | nil => intro seen y hy; simp [dedupFirstGo] at hy
  | cons x t ih =>
    intro seen y hy
    by_cases hx : x ∈ seen
    · rw [dedupFirstGo, if_pos hx] at hy
      exact List.mem_cons_of_mem _ (ih seen y hy)
    · rw [dedupFirstGo, if_neg hx] at hy
      rcases List.mem_cons.mp hy with h | h
      · subst h; simp
      · exact List.mem_cons_of_mem _ (ih (x :: seen) y h)

theorem dedupFirstGo_complete (xs : List Nat) : ∀ seen y,
    y ∈ xs → y ∉ seen → y ∈ dedupFirstGo xs seen := by
  induction xs with
  | nil => intro seen y hy; simp at hy
  | cons x t ih =>
    intro seen y hy hns
    rcases List.mem_cons.mp hy with h | h
    · subst h
      rw [dedupFirstGo, if_neg hns]
      simp
    · by_cases hx : x ∈ seen
      · rw [dedupFirstGo, if_pos hx]
        exact ih seen y h hns
      · rw [dedupFirstGo, if_neg hx]
        by_cases hyx : y = x
        · subst hyx; simp
        · exact List.mem_cons_of_mem _
            (ih (x :: seen) y h (by simp [hyx, hns]))

theorem filterMap_docIds_eq (rows : List SearchRow)
    (hjoin : ∀ r ∈ rows, ∀ d, r.d = some d → d.document_id = r.p.document_id)
    (hall : ∀ r ∈ rows, r.d ≠ none) :
    rows.filterMap (fun r => Option.map (fun d => d.document_id) r.d)
      = rows.map (fun r => r.p.document_id) := by
  induction rows with
  | nil => rfl
  | cons r rest ih =>
    cases hd : r.d with
    | none => exact absurd hd (hall r (by simp))
    | some d =>
      have hid := hjoin r (by simp) d hd
      have htail := ih (fun x hx d2 hd2 => hjoin x (List.mem_cons_of_mem _ hx) d2 hd2)
        (fun x hx => hall x (List.mem_cons_of_mem _ hx))
      simp [List.filterMap_cons, hd, hid, htail]

/-- Claim C4: with `with_documents` requested (and a well-dimensioned query
vector), the result of `search_single_vector` lists every matched point as a
ranked match, and its `documents` output carries each matched parent document's
id exactly once (no duplicates), ordered by the first appearance of that id
among the ranked matches. The hypotheses record the join contract: every row
carries its parent document (`p.document_id = d.document_id`). `dedupFirst` is
the spec-side description of first-occurrence ordering. -/
theorem C4_documents_dedup (vector : List Int) (rows : List SearchRow)
    (hlen : vector.length = 512)
    (hjoin : ∀ r ∈ rows, ∀ d, r.d = some d → d.document_id = r.p.document_id)
    (hall : ∀ r ∈ rows, r.d ≠ none) :
    ∃ pts docs,
      searchSingleVector vector rows true = Except.ok (pts, docs) ∧
      pts = rows.map (fun r => r.p) ∧
      docs.map (fun d => d.document_id)
        = dedupFirst (pts.map (fun q => q.document_id)) ∧
      (docs.map (fun d => d.document_id)).Nodup ∧
      (∀ i, i ∈ docs.map (fun d => d.document_id)
        ↔ i ∈ pts.map (fun q => q.document_id)) := by
  have hc : castFloatArray EMBEDDING_DIMENSIONS vector = Except.ok vector := by
    simp [castFloatArray, EMBEDDING_DIMENSIONS, hlen]
  have hids : (parseSearchRows rows).2.map (fun d => d.document_id)
      = dedupFirst ((rows.map (fun r => r.p)).map (fun q => q.document_id)) := by
    unfold parseSearchRows dedupFirst
    rw [parseGo_snd rows [], filterMap_docIds_eq rows hjoin hall, List.map_map]
    rfl
  have hfst : (parseSearchRows rows).1 = rows.map (fun r => r.p) :=
    parseGo_fst rows []
  refine ⟨(parseSearchRows rows).1, (parseSearchRows rows).2, ?_, hfst, ?_, ?_, ?_⟩
  · simp [searchSingleVector, hc]
  · rw [hids, hfst]
  · rw [hids]
    exact (dedupFirstGo_nodup _ []).1
  · intro i
    rw [hids, hfst, List.map_map]
    constructor
    · intro hi
      exact dedupFirstGo_subset _ [] i (by simpa [dedupFirst, List.map_map] using hi)
    · intro hi
      have := dedupFirstGo_complete
        ((rows.map (fun r => r.p)).map (fun q => q.document_id)) [] i
        (by simpa [List.map_map] using hi) (by simp)
      simpa [dedupFirst, List.map_map] using this

set_option maxRecDepth 10000 in
/-- Witness for C4: two top-ranked points of the same parent document — the
document appears exactly once in the output. -/
theorem C4_documents_dedup_witness :
    ∃ pts docs,
      searchSingleVector (List.replicate 512 0)
        [⟨⟨1, 7, [], [], 9⟩, some ⟨7, [], [], [], [], 0, 0⟩⟩,
         ⟨⟨2, 7, [], [], 8⟩, some ⟨7, [], [], [], [], 0, 0⟩⟩] true
        = Except.ok (pts, docs) ∧
      pts = List.map (fun r => r.p)
        ([⟨⟨1, 7, [], [], 9⟩, some ⟨7, [], [], [], [], 0, 0⟩⟩,
          ⟨⟨2, 7, [], [], 8⟩, some ⟨7, [], [], [], [], 0, 0⟩⟩] : List SearchRow) ∧
      docs.map (fun d => d.document_id)
        = dedupFirst (pts.map (fun q => q.document_id)) ∧
      (docs.map (fun d => d.document_id)).Nodup ∧
      (∀ i, i ∈ docs.map (fun d => d.document_id)
        ↔ i ∈ pts.map (fun q => q.document_id)) :=
  C4_documents_dedup (List.replicate 512 0)
    [⟨⟨1, 7, [], [], 9⟩, some ⟨7, [], [], [], [], 0, 0⟩⟩,
     ⟨⟨2, 7, [], [], 8⟩, some ⟨7, [], [], [], [], 0, 0⟩⟩]
    (by rw [List.length_replicate])
    (by
      intro r hr d hd
      simp only [List.mem_cons, List.not_mem_nil, or_false] at hr
      rcases hr with h | h <;> (subst h; injection hd with hd2; subst hd2; rfl))
    (by decide)

/-- Claim C5: a query vector whose length is not exactly the configured
embedding dimensionality (512) makes `search_single_vector` fail with the
engine's invalid-input (`InvalidArgument`-class) error at the
`FLOAT[EMBEDDING_DIMENSIONS]` parameter cast; a vector of the correct length
never produces that error. -/
theorem C5_vector_dimensionality (vector : List Int) (rows : List SearchRow)
    (wd : Bool) :
    (vector.length ≠ EMBEDDING_DIMENSIONS →
      searchSingleVector vector rows wd = Except.error DBErr.InvalidInput) ∧
    (vector.length = EMBEDDING_DIMENSIONS →
      ∃ out, searchSingleVector vector rows wd = Except.ok out) := by
  constructor
  · intro h
    simp [searchSingleVector, castFloatArray, h]
  · intro h
    have hc : castFloatArray EMBEDDING_DIMENSIONS vector = Except.ok vector := by
      simp [castFloatArray, h]
    cases wd
    · refine ⟨(rows.map (fun r => r.p), []), ?_⟩
      simp [searchSingleVector, hc]
    · refine ⟨parseSearchRows rows, ?_⟩
      simp [searchSingleVector, hc]

set_option maxRecDepth 10000 in
/-- Witness for C5: a one-coordinate vector is rejected with the invalid-input
error; a 512-coordinate vector is accepted. -/
theorem C5_vector_dimensionality_witness :
    searchSingleVector [1] [] false = Except.error DBErr.InvalidInput ∧
    ∃ out, searchSingleVector (List.replicate 512 0) [] false = Except.ok out :=
  ⟨(C5_vector_dimensionality [1] [] false).1 (by decide),
   (C5_vector_dimensionality (List.replicate 512 0) [] false).2
     (by rw [List.length_replicate]; rfl)⟩

/-- Modelled from the spec: `PointQuerySet.update` (in
`languru/documents/_client.py`, absent from the sources) — "update is
disallowed — every call fails with `NotSupported`", regardless of the point id
or the update arguments (an opaque field map here); no success value carrying a
modified store is ever produced. -/
def pointUpdate (store : List Point) (point_id : Nat)
    (fields : List (List Char × List Char)) : Except DBErr (List Point × Point) :=
  Except.error DBErr.NotSupported

/-- Claim C6: every call of `Point.objects.update`, whatever the point id and
update arguments, fails with `NotSupported`, and no call ever returns an
updated store — no Point row is modified. -/
theorem C6_point_update_not_supported (store : List Point) (point_id : Nat)
    (fields : List (List Char × List Char)) :
    pointUpdate store point_id fields = Except.error DBErr.NotSupported ∧
    ∀ out, pointUpdate store point_id fields ≠ Except.ok out :=
  ⟨rfl, fun _ h => Except.noConfusion h⟩

/-- Modelled from the spec: `PointQuerySet.retrieve` (in
`languru/documents/_client.py`, absent from the sources) — fetches one row by
primary key, failing with `NotFound` when absent; with `with_embedding=false`
the embedding column is not selected, so the returned object carries the empty
placeholder vector regardless of what is stored. -/
def pointRetrieve (store : List Point) (pid : Nat) (with_embedding : Bool) :
    Except DBErr Point :=
  match store.find? (fun p => p.point_id == pid) with
  | none => Except.error DBErr.NotFound
  | some p => Except.ok (if with_embedding then p else { p with embedding := [] })

/-- Claim C9: retrieving a stored point with `with_embedding=false` yields an
object whose `is_embedded()` is false regardless of the stored vector, while
retrieving a point stored with a non-empty embedding with `with_embedding=true`
yields `is_embedded()` true. Retrieval is spec-modelled; `is_embedded` is the
source's. -/
theorem C9_retrieve_embedding_projection (store : List Point) (pid : Nat) :
    (∀ q, pointRetrieve store pid false = Except.ok q → q.is_embedded = false) ∧
    (∀ p, store.find? (fun r => r.point_id == pid) = some p → p.embedding ≠ [] →
      ∃ q, pointRetrieve store pid true = Except.ok q ∧ q.is_embedded = true) := by
  constructor
  · intro q hq
    unfold pointRetrieve at hq
    cases hfind : store.find? (fun p => p.point_id == pid) with
    | none =>
      rw [hfind] at hq
      exact Except.noConfusion hq
    | some p =>
      rw [hfind] at hq
      have hq2 : ({ p with embedding := [] } : Point) = q := by
        simpa using hq
      rw [← hq2]
      simp [Point.is_embedded]
  · intro p hfind hne
    refine ⟨p, ?_, ?_⟩
    · unfold pointRetrieve
      rw [hfind]
      simp
    · simp [Point.is_embedded, List.length_eq_zero, hne]

/-- Witness for C9: a stored point with a one-coordinate embedding, retrieved
with the embedding column selected, reports `is_embedded()` true. -/
theorem C9_retrieve_embedding_projection_witness :
    ∃ q, pointRetrieve [⟨1, 2, [], [3]⟩] 1 true = Except.ok q ∧
      q.is_embedded = true :=
  (C9_retrieve_embedding_projection [⟨1, 2, [], [3]⟩] 1).2 ⟨1, 2, [], [3]⟩
    (by decide) (by decide)
